import Mathlib

/-!
Shallow embedding of the acceptance pipeline of `src/acceptance_map.js`
(the C700Hardware repository): numeral rendering, the 7-digit tokenizer,
the shape / range / adjacency checks, the colorizer, the numeric encoders
(decimal, binary, classic and bijective base-k text encoding), and the
`evaluate` verdict logic.  Strings are modelled as `List Char`, JS `BigInt`
and the small integer values as `Nat` (all quantities in this pipeline are
non-negative integers well below 2^53, so JS number arithmetic on them is
exact).
-/

namespace C700

/-! ### Numeral rendering: model of JS `n.toString(base)` for naturals -/

/-- Little-endian base-`b` digits of `n`, driven by fuel; with fuel at least
`n` this mirrors the divide-by-base loop of JS number-to-string conversion,
producing `[0]` for `n = 0` just as `(0).toString(b)` is `"0"`. -/
def toRevDigits (b : Nat) : Nat → Nat → List Nat
  | 0, n => [n % b]
  | fuel + 1, n => if n < b then [n] else n % b :: toRevDigits b fuel (n / b)

/-- Model of JS `n.toString(b)` for a non-negative integer: big-endian digit
characters, lowercase, no leading zeros (except `"0"` itself). -/
def jsNumToString (b n : Nat) : List Char :=
  ((toRevDigits b n n).map Nat.digitChar).reverse

/-- Value of a little-endian base-`b` digit list (decoder used in proofs). -/
def ofRevDigits (b : Nat) : List Nat → Nat
  | [] => 0
  | d :: ds => d + b * ofRevDigits b ds

theorem ofRevDigits_toRevDigits (b : Nat) (hb : 2 ≤ b) :
    ∀ fuel n, n ≤ fuel → ofRevDigits b (toRevDigits b fuel n) = n := by
  intro fuel
  induction fuel with
  | zero =>
    intro n hn
    have h0 : n = 0 := Nat.le_zero.mp hn
    subst h0
    simp [toRevDigits, ofRevDigits]
  | succ fuel ih =>
    intro n hn
    by_cases h : n < b
    · simp [toRevDigits, h, ofRevDigits]
    · have hb1 : 1 < b := hb
      have hn1 : 1 ≤ n := by omega
      have hdiv : n / b < n := Nat.div_lt_self hn1 hb1
      have hle : n / b ≤ fuel := by omega
      simp only [toRevDigits, if_neg h, ofRevDigits, ih (n / b) hle]
      exact Nat.mod_add_div n b

theorem toRevDigits_lt (b : Nat) (hb : 0 < b) :
    ∀ fuel n, ∀ d ∈ toRevDigits b fuel n, d < b := by
  intro fuel
  induction fuel with
  | zero =>
    intro n d hd
    simp only [toRevDigits, List.mem_singleton] at hd
    subst hd
    exact Nat.mod_lt _ hb
  | succ fuel ih =>
    intro n d hd
    by_cases h : n < b
    · simp only [toRevDigits, if_pos h, List.mem_singleton] at hd
      omega
    · simp only [toRevDigits, if_neg h, List.mem_cons] at hd
      rcases hd with hd | hd
      · subst hd; exact Nat.mod_lt _ hb
      · exact ih _ _ hd

/-- Appending trailing zero digits to a little-endian digit list leaves its
value unchanged (padding on the most-significant side). -/
theorem ofRevDigits_append_zeros (b : Nat) :
    ∀ (l : List Nat) (k : Nat),
      ofRevDigits b (l ++ List.replicate k 0) = ofRevDigits b l := by
  intro l
  induction l with
  | nil =>
    intro k
    induction k with
    | zero => simp [ofRevDigits]
    | succ k ihk =>
      simp only [List.nil_append] at ihk ⊢
      simp [List.replicate_succ, ofRevDigits, ihk]
  | cons d ds ih =>
    intro k
    simp [ofRevDigits, ih]

/-! ### Colorizer: `colorIndexToHex` -/

/-- Constant `MAX_COLOR_INDEX = 16 ** 6` from acceptance_map.js. -/
def MAX_COLOR_INDEX : Nat := 16 ^ 6

/-- Model of `String.prototype.padStart(6, "0")` on a character list. -/
def padStart6 (l : List Char) : List Char :=
  List.replicate (6 - l.length) '0' ++ l

/-- Function `colorIndexToHex` from acceptance_map.js:
`"#" + (idx - 1).toString(16).padStart(6, "0")`. -/
def colorIndexToHex (idx : Nat) : String :=
  String.mk ('#' :: padStart6 (jsNumToString 16 (idx - 1)))

/-- Numeric value of a lowercase hexadecimal digit character
(decoder used in proofs). -/
def hexCharVal (c : Char) : Nat :=
  if c.toNat ≤ 57 then c.toNat - 48 else c.toNat - 87

theorem hexCharVal_digitChar : ∀ d, d < 16 → hexCharVal (Nat.digitChar d) = d := by
  decide

/-- Value of a big-endian hexadecimal character list (decoder used in
proofs). -/
def decodeHex (l : List Char) : Nat :=
  ofRevDigits 16 (l.reverse.map hexCharVal)

/-- The padded hexadecimal body built by `colorIndexToHex` decodes back to
the encoded value: the colorizer loses no information. -/
theorem decodeHex_padStart6 (v : Nat) :
    decodeHex (padStart6 (jsNumToString 16 v)) = v := by
  unfold decodeHex padStart6 jsNumToString
  rw [List.reverse_append, List.reverse_replicate, List.reverse_reverse]
  rw [List.map_append, List.map_map, List.map_replicate]
  have hz : hexCharVal '0' = 0 := by decide
  rw [hz]
  have hmap : (toRevDigits 16 v v).map (hexCharVal ∘ Nat.digitChar)
      = toRevDigits 16 v v := by
    have : ∀ l : List Nat, (∀ d ∈ l, d < 16) →
        l.map (hexCharVal ∘ Nat.digitChar) = l := by
      intro l
      induction l with
      | nil => intro _; rfl
      | cons d ds ih =>
        intro hall
        simp only [List.map_cons, Function.comp_apply, List.cons.injEq]
        exact ⟨hexCharVal_digitChar d (hall d (by simp)),
          ih fun e he => hall e (by simp [he])⟩
    exact this _ (toRevDigits_lt 16 (by norm_num) v v)
  rw [hmap, ofRevDigits_append_zeros, ofRevDigits_toRevDigits 16 (by norm_num) v v le_rfl]

/-! ### Shape check: `isPerfectSquare` -/

/-- Structural integer square root, the value of JS
`Math.floor(Math.sqrt n)` on a natural `n` (exact for all values this
pipeline can produce). -/
def isqrt : Nat → Nat
  | 0 => 0
  | n + 1 =>
    let r := isqrt n
    if (r + 1) * (r + 1) ≤ n + 1 then r + 1 else r

theorem isqrt_spec : ∀ n, isqrt n * isqrt n ≤ n ∧ n < (isqrt n + 1) * (isqrt n + 1) := by
  intro n
  induction n with
  | zero => simp [isqrt]
  | succ n ih =>
    rcases ih with ⟨h1, h2⟩
    by_cases h : (isqrt n + 1) * (isqrt n + 1) ≤ n + 1
    · have he : isqrt (n + 1) = isqrt n + 1 := by simp [isqrt, h]
      rw [he]
      constructor
      · exact h
      · have heq : (isqrt n + 1) * (isqrt n + 1) = n + 1 := by omega
        nlinarith
    · have he : isqrt (n + 1) = isqrt n := by simp [isqrt, h]
      rw [he]
      omega

theorem isqrt_unique (n r : Nat) (h1 : r * r ≤ n) (h2 : n < (r + 1) * (r + 1)) :
    isqrt n = r := by
  rcases isqrt_spec n with ⟨g1, g2⟩
  rcases Nat.lt_trichotomy (isqrt n) r with h | h | h
  · have : (isqrt n + 1) * (isqrt n + 1) ≤ r * r :=
      Nat.mul_le_mul h h
    omega
  · exact h
  · have : (r + 1) * (r + 1) ≤ isqrt n * isqrt n :=
      Nat.mul_le_mul h h
    omega

/-- Function `isPerfectSquare` from acceptance_map.js.  Counts here are naturals, so
the JS guards `Number.isFinite(n)` (always true for these values) and
`n <= 0` collapse to the `n = 0` test; `Math.floor(Math.sqrt n)` is the
integer square root `isqrt`. -/
def isPerfectSquare (n : Nat) : Bool :=
  if n = 0 then false else isqrt n * isqrt n == n

theorem isPerfectSquare_iff (n : Nat) (hn : 1 ≤ n) :
    isPerfectSquare n = true ↔ ∃ m, m * m = n := by
  have hn0 : n ≠ 0 := by omega
  constructor
  · intro h
    refine ⟨isqrt n, ?_⟩
    simp only [isPerfectSquare, if_neg hn0, beq_iff_eq] at h
    exact h
  · rintro ⟨m, rfl⟩
    have : isqrt (m * m) = m := by
      apply isqrt_unique
      · exact le_rfl
      · nlinarith
    simp [isPerfectSquare, hn0, this]

/-! ### Tokenizer: `tokenizeDecimal7` -/

/-- Value of a big-endian decimal digit string: the positional accumulation
performed by JS `parseInt` / `BigInt` on an all-digit string. -/
def decDigitsVal (l : List Char) : Nat :=
  l.foldl (fun a c => a * 10 + (c.toNat - 48)) 0

/-- JS `parseInt(seg, 10)` restricted to the inputs the tokenizer feeds it
(slices of a canonical decimal rendering, so no sign or leading whitespace):
the value of the leading run of decimal digits, `none` (NaN) when there is
none. -/
def jsParseInt10 (l : List Char) : Option Nat :=
  let ds := l.takeWhile (fun c => c.isDigit)
  if ds.isEmpty then none else some (decDigitsVal ds)

/-- The loop of `tokenizeDecimal7`: take `slice(i, i + 7)`, parse it, keep
non-NaN values, advance `i` by 7 (= drop 7 characters).  Fuel bounds the
iteration count; `s.length` iterations always suffice. -/
def tokenizeLoop : Nat → List Char → List Nat
  | _, [] => []
  | 0, _ => []
  | fuel + 1, l =>
    match jsParseInt10 (l.take 7) with
    | some v => v :: tokenizeLoop fuel (l.drop 7)
    | none => tokenizeLoop fuel (l.drop 7)

/-- Function `tokenizeDecimal7` from acceptance_map.js. -/
def tokenizeDecimal7 (s : List Char) : List Nat :=
  tokenizeLoop s.length s

/-! ### Range check: `areValidColorIndexes` -/

structure RangeResult where
  ok : Bool
  bad : List (Nat × Nat)
deriving Repr, DecidableEq

/-- The per-token test of `areValidColorIndexes`:
`Number.isInteger(v) && v >= 1 && v <= MAX_COLOR_INDEX` (integrality is
automatic for naturals). -/
def colorIndexValid (v : Nat) : Bool :=
  decide (1 ≤ v ∧ v ≤ MAX_COLOR_INDEX)

/-- Function `areValidColorIndexes` from acceptance_map.js: collects the
`{i, v}` pairs failing the bound; `ok` iff none do. -/
def areValidColorIndexes (indexes : List Nat) : RangeResult :=
  let bad := indexes.enum.filter (fun p => ! colorIndexValid p.2)
  ⟨bad.isEmpty, bad⟩

/-! ### Adjacency check: `adjacencyConflicts` -/

structure AdjResult where
  ok : Bool
  m : Nat
  conflicts : List Nat
  reason : String
deriving Repr, DecidableEq

/-- Accessor `at(r, c) = indexes[r * m + c]` from `adjacencyConflicts` (every use is
in bounds, so the default value is never observed). -/
def atCell (indexes : List Nat) (m r c : Nat) : Nat :=
  indexes.getD (r * m + c) 0

/-- Flat index of the cell compared as the right neighbour of `(r, c)`:
`(r, c+1)` inside the grid, the row start `(r, 0)` under wrap with `m > 1`,
nothing otherwise — the branch structure of the right-neighbour `if` chain. -/
def rightTarget (m : Nat) (wrap : Bool) (r c : Nat) : Option Nat :=
  if c + 1 < m then some (r * m + (c + 1))
  else if wrap && decide (1 < m) then some (r * m) else none

/-- Flat index of the cell compared as the down neighbour of `(r, c)`:
`(r+1, c)` inside the grid, the column top `(0, c)` under wrap with `m > 1`. -/
def downTarget (m : Nat) (wrap : Bool) (r c : Nat) : Option Nat :=
  if r + 1 < m then some ((r + 1) * m + c)
  else if wrap && decide (1 < m) then some c else none

/-- The cells inserted into the conflict set while visiting cell `(r, c)`:
the right-neighbour comparison, then the down-neighbour comparison, each
inserting both endpoints on equality (`add(r, c); add(target)`). -/
def conflictAdds (indexes : List Nat) (m : Nat) (wrap : Bool) (r c : Nat) : List Nat :=
  (match rightTarget m wrap r c with
   | some j => if atCell indexes m r c = indexes.getD j 0 then [r * m + c, j] else []
   | none => []) ++
  (match downTarget m wrap r c with
   | some j => if atCell indexes m r c = indexes.getD j 0 then [r * m + c, j] else []
   | none => [])

/-- All conflict-set insertions of the double loop over rows and columns. -/
def conflictInsertions (indexes : List Nat) (m : Nat) (wrap : Bool) : List Nat :=
  (List.range m).flatMap fun r =>
    (List.range m).flatMap fun c => conflictAdds indexes m wrap r c

/-- Function `adjacencyConflicts` from acceptance_map.js.  The JS `Set` is modelled
by deduplicating the insertion sequence: same members, and
`conflicts.size === 0` iff no insertion happened.  The final numeric sort
of the returned array only fixes presentation order and is omitted. -/
def adjacencyConflicts (indexes : List Nat) (wrap : Bool) : AdjResult :=
  let n := indexes.length
  if isPerfectSquare n then
    let m := isqrt n
    let conflicts := (conflictInsertions indexes m wrap).dedup
    { ok := conflicts.isEmpty, m := m, conflicts := conflicts,
      reason := if conflicts.isEmpty then "No adjacency conflicts."
        else "Found " ++ toString conflicts.length ++ " conflict cell(s)." }
  else
    { ok := false, m := 0, conflicts := [],
      reason := "Tile count is not a perfect square." }

/-! ### Verdict: the rule aggregation of `evaluate` -/

structure EvalResult where
  squareOk : Bool
  rangeOk : Bool
  m : Nat
  adj : AdjResult
  accepted : Bool
  reason : String
deriving Repr, DecidableEq

/-- The placeholder adjacency object `evaluate` builds when an earlier rule
failed: `{ ok: false, m, conflicts: [], reason: 'Not evaluated ...' }`. -/
def notEvaluatedAdj (m : Nat) : AdjResult :=
  { ok := false, m := m, conflicts := [],
    reason := "Not evaluated (failed earlier rule)." }

/-- Steps (iii)-(v) of `evaluate` from acceptance_map.js, from the token
stream on: range check, perfect-square check with its reported grid side,
short-circuited adjacency check, the accept decision
`squareOk && range.ok && adj.ok`, and the reported reason
(`ACCEPT` reason, or the first failing rule in the order shape, range,
adjacency). -/
def evaluateVerdict (tokens : List Nat) (wrap : Bool) : EvalResult :=
  let squareOk := isPerfectSquare tokens.length
  let m := if squareOk then isqrt tokens.length else 0
  let range := areValidColorIndexes tokens
  let adj := if squareOk && range.ok then adjacencyConflicts tokens wrap
    else notEvaluatedAdj m
  let accepted := squareOk && range.ok && adj.ok
  let reason :=
    if accepted then "All rules satisfied"
    else if ! squareOk then "Not a perfect square tile count"
    else if ! range.ok then "One or more tokens out of range"
    else "Adjacent tile conflict(s)"
  { squareOk := squareOk, rangeOk := range.ok, m := m, adj := adj,
    accepted := accepted, reason := reason }

/-- Steps (i)-(ii) of `evaluate` for an already-encoded integer `N`:
`base10 = N.toString(10)` fed to the 7-digit tokenizer. -/
def pipelineTokens (N : Nat) : List Nat :=
  tokenizeDecimal7 (jsNumToString 10 N)

/-! ### Numeric encoders: `parseDecimalBigInt`, `parseBinaryToBigInt`,
`encodeStringClassic`, `encodeStringBijective` -/

/-- The character class stripped by JS `String.prototype.trim`
(ECMAScript WhiteSpace and LineTerminator code points). -/
def jsIsWhitespace (c : Char) : Bool :=
  [9, 10, 11, 12, 13, 32, 160, 0x1680, 0x2028, 0x2029,
    0x202F, 0x205F, 0x3000, 0xFEFF].contains c.toNat
  || (decide (0x2000 ≤ c.toNat) && decide (c.toNat ≤ 0x200A))

/-- JS `s.trim()`: drop whitespace from both ends. -/
def jsTrim (s : List Char) : List Char :=
  ((s.dropWhile jsIsWhitespace).reverse.dropWhile jsIsWhitespace).reverse

/-- The regex `^[0-9]+$`: non-empty, decimal digits only. -/
def matchesDecimal (t : List Char) : Bool :=
  ! t.isEmpty && t.all (fun c => c.isDigit)

/-- Function `parseDecimalBigInt` from acceptance_map.js: trim, test `^[0-9]+$`,
throw on failure, otherwise `BigInt(t)` (the literal decimal value). -/
def parseDecimalBigInt (s : List Char) : Except String Nat :=
  let t := jsTrim s
  if matchesDecimal t then Except.ok (decDigitsVal t)
  else Except.error "Decimal input must contain only digits 0-9."

/-- The regex `^[01]+$`: non-empty, binary digits only. -/
def matchesBinary (t : List Char) : Bool :=
  ! t.isEmpty && t.all (fun c => c == '0' || c == '1')

/-- Value of a big-endian bit string, as computed by `BigInt('0b' + t)`. -/
def bitsVal (l : List Char) : Nat :=
  l.foldl (fun a c => a * 2 + (c.toNat - 48)) 0

/-- Function `parseBinaryToBigInt` from acceptance_map.js: trim, test `^[01]+$`,
throw on failure, otherwise the base-2 value of the bit string. -/
def parseBinaryToBigInt (s : List Char) : Except String Nat :=
  let t := jsTrim s
  if matchesBinary t then Except.ok (bitsVal t)
  else Except.error "Binary input must contain only 0 and 1."

/-- Recursion underlying `buildCharIndexMap`: the JS loop performs
`m.set(charsetArr[i], i)` for increasing `i`, so a later occurrence of the
same character overwrites an earlier one; this model gives the tail
(`i + 1` onwards) priority over position `i` accordingly. -/
def buildCharIndexMapAux : List Char → Nat → Char → Option Nat
  | [], _, _ => none
  | a :: rest, i, ch =>
    match buildCharIndexMapAux rest (i + 1) ch with
    | some j => some j
    | none => if ch = a then some i else none

/-- Function `buildCharIndexMap` from acceptance_map.js as a lookup function
(the JS `Map` queried with `.get`, `none` for absent characters). -/
def buildCharIndexMap (charsetArr : List Char) : Char → Option Nat :=
  buildCharIndexMapAux charsetArr 0

/-- Errors thrown by the string encoders. -/
inductive EncodeError where
  | emptyInput
  | charNotInCharset (c : Char)
deriving Repr, DecidableEq

/-- Loop of `encodeStringClassic`: `id = id * k + BigInt(idx)` per
character, throwing when a character is missing from the charset. -/
def encodeClassicGo (k : Nat) (charToIdx : Char → Option Nat) :
    List Char → Nat → Except EncodeError Nat
  | [], id => Except.ok id
  | ch :: rest, id =>
    match charToIdx ch with
    | none => Except.error (EncodeError.charNotInCharset ch)
    | some idx => encodeClassicGo k charToIdx rest (id * k + idx)

/-- Function `encodeStringClassic` from acceptance_map.js.  The JS guard
`!str || str.trim() === ''` holds exactly when every character is
whitespace (vacuously for the empty string). -/
def encodeStringClassic (str : List Char) (charsetArr : List Char)
    (charToIdx : Char → Option Nat) : Except EncodeError Nat :=
  if str.all jsIsWhitespace then Except.error EncodeError.emptyInput
  else encodeClassicGo charsetArr.length charToIdx str 0

/-- Loop of `encodeStringBijective`: digit `idx + 1` (range `1..k`)
instead of `idx`. -/
def encodeBijectiveGo (k : Nat) (charToIdx : Char → Option Nat) :
    List Char → Nat → Except EncodeError Nat
  | [], id => Except.ok id
  | ch :: rest, id =>
    match charToIdx ch with
    | none => Except.error (EncodeError.charNotInCharset ch)
    | some idx0 => encodeBijectiveGo k charToIdx rest (id * k + (idx0 + 1))

/-- Function `encodeStringBijective` from acceptance_map.js. -/
def encodeStringBijective (str : List Char) (charsetArr : List Char)
    (charToIdx : Char → Option Nat) : Except EncodeError Nat :=
  if str.all jsIsWhitespace then Except.error EncodeError.emptyInput
  else encodeBijectiveGo charsetArr.length charToIdx str 0

/-! ### Claim C1: the colorizer -/

/-- C1, counterexample: the claim states `colorize(1) == "000000"`, but
`colorIndexToHex` prefixes the hex digits with `"#"`, so it returns
`"#000000"` at 1, not `"000000"`. -/
theorem colorizer_claim_counterexample :
    colorIndexToHex 1 ≠ "000000" ∧ colorIndexToHex 1 = "#000000" := by
  constructor
  · decide
  · decide

/-- C1 (amended): for every value in `[1, 16^6]` the colorizer returns `"#"`
followed by the hexadecimal rendering of `value - 1` zero-padded to 6
digits, so `colorize(1) = "#000000"`, `colorize(16^6) = "#ffffff"`, and the
map is injective on `[1, 16^6]`. -/
theorem colorizer_bijection_amended :
    colorIndexToHex 1 = "#000000" ∧ colorIndexToHex MAX_COLOR_INDEX = "#ffffff"
    ∧ ∀ a b : Nat, 1 ≤ a → a ≤ MAX_COLOR_INDEX → 1 ≤ b → b ≤ MAX_COLOR_INDEX →
        colorIndexToHex a = colorIndexToHex b → a = b := by
  refine ⟨by decide, by decide, ?_⟩
  intro a b ha _ hb _ h
  have hdata : ('#' :: padStart6 (jsNumToString 16 (a - 1)))
      = ('#' :: padStart6 (jsNumToString 16 (b - 1))) := by
    have := congrArg String.data h
    simpa [colorIndexToHex] using this
  have hpad : padStart6 (jsNumToString 16 (a - 1))
      = padStart6 (jsNumToString 16 (b - 1)) := List.cons.inj hdata |>.2
  have := congrArg decodeHex hpad
  rw [decodeHex_padStart6, decodeHex_padStart6] at this
  omega

/-- C1 witness: the amended bijection theorem applied at a concrete valid
index. -/
theorem colorizer_bijection_amended_witness :
    (1 : Nat) ≤ 42 ∧ 42 ≤ MAX_COLOR_INDEX ∧ (42 : Nat) = 42 :=
  ⟨by decide, by decide,
    colorizer_bijection_amended.2.2 42 42 (by decide) (by decide) (by decide)
      (by decide) rfl⟩

/-! ### Claim C6: the shape check -/

/-- C6, counterexample: at count 0 the claimed equivalence fails — 0 has an
integer square root (`0 * 0 = 0`) yet `isPerfectSquare` rejects it
(the JS guard `n <= 0` returns false before the square-root test). -/
theorem shape_check_zero_counterexample :
    ¬ (isPerfectSquare 0 = true ↔ ∃ m, m * m = 0) := by
  intro h
  have := h.mpr ⟨0, rfl⟩
  simp [isPerfectSquare] at this

/-- C6 (amended): for every count `n ≥ 1` the shape check accepts `n`
exactly when some integer `m` satisfies `m * m = n`, and the grid side
reported by the adjacency checker is the integer square root on success
and 0 on failure. -/
theorem shape_check_iff_amended :
    (∀ n, 1 ≤ n → (isPerfectSquare n = true ↔ ∃ m, m * m = n))
    ∧ ∀ (indexes : List Nat) (wrap : Bool),
        (adjacencyConflicts indexes wrap).m =
          if isPerfectSquare indexes.length then isqrt indexes.length else 0 := by
  constructor
  · exact isPerfectSquare_iff
  · intro indexes wrap
    by_cases h : isPerfectSquare indexes.length
    · simp [adjacencyConflicts, h]
    · simp [adjacencyConflicts, h]

/-- C6 witness: 4 passes the shape check, 5 fails it, and a 5-token stream
gets grid side 0. -/
theorem shape_check_iff_amended_witness :
    isPerfectSquare 4 = true ∧ isPerfectSquare 5 = false
    ∧ (adjacencyConflicts [1, 2, 3, 4, 5] false).m = 0 :=
  ⟨(shape_check_iff_amended.1 4 (by decide)).mpr ⟨2, by norm_num⟩,
   by decide,
   (shape_check_iff_amended.2 [1, 2, 3, 4, 5] false).trans (by decide)⟩

/-! ### Claim C3: the overall verdict -/

/-- C3: the verdict accepts iff the shape, range and adjacency checks all
pass; the reported reason is that of the first failing check in the order
shape, range, adjacency; and the adjacency check result is the
not-evaluated placeholder unless both shape and range pass. -/
theorem accept_verdict_logic (tokens : List Nat) (wrap : Bool) :
    ((evaluateVerdict tokens wrap).accepted = true ↔
      (isPerfectSquare tokens.length = true ∧ (areValidColorIndexes tokens).ok = true
        ∧ (adjacencyConflicts tokens wrap).ok = true))
    ∧ (isPerfectSquare tokens.length = false →
        (evaluateVerdict tokens wrap).reason = "Not a perfect square tile count")
    ∧ (isPerfectSquare tokens.length = true → (areValidColorIndexes tokens).ok = false →
        (evaluateVerdict tokens wrap).reason = "One or more tokens out of range")
    ∧ (isPerfectSquare tokens.length = true → (areValidColorIndexes tokens).ok = true →
        (adjacencyConflicts tokens wrap).ok = false →
        (evaluateVerdict tokens wrap).reason = "Adjacent tile conflict(s)")
    ∧ ((evaluateVerdict tokens wrap).accepted = true →
        (evaluateVerdict tokens wrap).reason = "All rules satisfied")
    ∧ (¬ (isPerfectSquare tokens.length = true ∧ (areValidColorIndexes tokens).ok = true) →
        (evaluateVerdict tokens wrap).adj = notEvaluatedAdj (evaluateVerdict tokens wrap).m)
    ∧ ((isPerfectSquare tokens.length = true ∧ (areValidColorIndexes tokens).ok = true) →
        (evaluateVerdict tokens wrap).adj = adjacencyConflicts tokens wrap) := by
  cases hsq : isPerfectSquare tokens.length <;>
    cases hr : (areValidColorIndexes tokens).ok <;>
      cases ha : (adjacencyConflicts tokens wrap).ok <;>
        simp [evaluateVerdict, hsq, hr, ha, notEvaluatedAdj]

/-- C3 witness: each rejection reason, and acceptance, at concrete token
streams. -/
theorem accept_verdict_logic_witness :
    (evaluateVerdict [1, 2, 3] false).reason = "Not a perfect square tile count"
    ∧ (evaluateVerdict [0, 1, 2, 3] false).reason = "One or more tokens out of range"
    ∧ (evaluateVerdict [1, 1, 2, 3] false).reason = "Adjacent tile conflict(s)"
    ∧ (evaluateVerdict [1, 2, 3, 4] false).accepted = true
    ∧ (evaluateVerdict [1, 2, 3, 4] false).reason = "All rules satisfied" :=
  ⟨(accept_verdict_logic [1, 2, 3] false).2.1 (by decide),
   (accept_verdict_logic [0, 1, 2, 3] false).2.2.1 (by decide) (by decide),
   (accept_verdict_logic [1, 1, 2, 3] false).2.2.2.1 (by decide) (by decide) (by decide),
   (accept_verdict_logic [1, 2, 3, 4] false).1.mpr ⟨by decide, by decide, by decide⟩,
   (accept_verdict_logic [1, 2, 3, 4] false).2.2.2.2.1
     ((accept_verdict_logic [1, 2, 3, 4] false).1.mpr ⟨by decide, by decide, by decide⟩)⟩

/-! ### Tokenizer lemmas and claims C5, C8, C10 -/

theorem takeWhile_all {p : Char → Bool} :
    ∀ l : List Char, (∀ c ∈ l, p c = true) → l.takeWhile p = l := by
  intro l
  induction l with
  | nil => intro _; rfl
  | cons a as ih =>
    intro h
    have ha : p a = true := h a (by simp)
    simp [List.takeWhile_cons, ha, ih fun c hc => h c (by simp [hc])]

theorem jsParseInt10_digits (l : List Char) (hne : l ≠ [])
    (h : ∀ c ∈ l, c.isDigit = true) : jsParseInt10 l = some (decDigitsVal l) := by
  unfold jsParseInt10
  rw [takeWhile_all l h]
  cases l with
  | nil => exact absurd rfl hne
  | cons a as => rfl

/-- The window decomposition as the spec words it: successive windows of at
most 7 characters starting at offset 0 and advancing by 7 (spec-side
companion of the tokenizer loop). -/
def specWindows : Nat → List Char → List (List Char)
  | 0, _ => []
  | fuel + 1, l => if l.isEmpty then [] else l.take 7 :: specWindows fuel (l.drop 7)

/-- Windows of a character list, with adequate fuel. -/
def specWindows7 (s : List Char) : List (List Char) :=
  specWindows s.length s

theorem tokenizeLoop_eq_map :
    ∀ (fuel : Nat) (l : List Char), l.length ≤ fuel →
      (∀ c ∈ l, c.isDigit = true) →
      tokenizeLoop fuel l = (specWindows fuel l).map decDigitsVal := by
  intro fuel
  induction fuel with
  | zero =>
    intro l hl _
    have : l = [] := List.length_eq_zero.mp (Nat.le_zero.mp hl)
    subst this
    rfl
  | succ fuel ih =>
    intro l hl hd
    cases l with
    | nil => rfl
    | cons a as =>
      have htake : ∀ c ∈ (a :: as).take 7, c.isDigit = true :=
        fun c hc => hd c (List.take_subset _ _ hc)
      have htne : (a :: as).take 7 ≠ [] := by simp
      have hlen : ((a :: as).drop 7).length ≤ fuel := by
        simp only [List.length_drop, List.length_cons] at *
        omega
      have hdd : ∀ c ∈ (a :: as).drop 7, c.isDigit = true :=
        fun c hc => hd c (List.drop_subset _ _ hc)
      simp only [tokenizeLoop, jsParseInt10_digits _ htne htake, specWindows,
        List.isEmpty_cons, Bool.false_eq_true, if_false, List.map_cons]
      rw [ih _ hlen hdd]

theorem specWindows_length :
    ∀ (fuel : Nat) (l : List Char), l.length ≤ fuel →
      (specWindows fuel l).length = (l.length + 6) / 7 := by
  intro fuel
  induction fuel with
  | zero =>
    intro l hl
    have : l = [] := List.length_eq_zero.mp (Nat.le_zero.mp hl)
    subst this
    rfl
  | succ fuel ih =>
    intro l hl
    cases l with
    | nil => rfl
    | cons a as =>
      have hlen : ((a :: as).drop 7).length ≤ fuel := by
        simp only [List.length_drop, List.length_cons] at *
        omega
      simp only [specWindows, List.isEmpty_cons, Bool.false_eq_true, if_false,
        List.length_cons, ih _ hlen, List.length_drop]
      omega

theorem specWindows_mem :
    ∀ (fuel : Nat) (l : List Char), ∀ w ∈ specWindows fuel l,
      w.length ≤ 7 ∧ ∀ c ∈ w, c ∈ l := by
  intro fuel
  induction fuel with
  | zero => intro l w hw; exact absurd hw (List.not_mem_nil w)
  | succ fuel ih =>
    intro l w hw
    cases l with
    | nil => exact absurd hw (List.not_mem_nil w)
    | cons a as =>
      simp only [specWindows, List.isEmpty_cons, Bool.false_eq_true, if_false,
        List.mem_cons] at hw
      rcases hw with rfl | hw
      · constructor
        · simp only [List.length_take]
          omega
        · exact fun c hc => List.take_subset _ _ hc
      · rcases ih _ w hw with ⟨h1, h2⟩
        exact ⟨h1, fun c hc => List.drop_subset _ _ (h2 c hc)⟩

theorem specWindows_full_width :
    ∀ (fuel : Nat) (l : List Char), l.length ≤ fuel → 7 ∣ l.length →
      ∀ w ∈ specWindows fuel l, w.length = 7 := by
  intro fuel
  induction fuel with
  | zero => intro l hl _ w hw; exact absurd hw (List.not_mem_nil w)
  | succ fuel ih =>
    intro l hl hdvd w hw
    cases l with
    | nil => exact absurd hw (List.not_mem_nil w)
    | cons a as =>
      have hge : 7 ≤ (a :: as).length := by
        rcases hdvd with ⟨k, hk⟩
        simp only [List.length_cons] at *
        omega
      simp only [specWindows, List.isEmpty_cons, Bool.false_eq_true, if_false,
        List.mem_cons] at hw
      rcases hw with rfl | hw
      · simp only [List.length_take]
        omega
      · have hlen : ((a :: as).drop 7).length ≤ fuel := by
          simp only [List.length_drop, List.length_cons] at *
          omega
        have hdvd2 : 7 ∣ ((a :: as).drop 7).length := by
          simp only [List.length_drop]
          rcases hdvd with ⟨k, hk⟩
          exact ⟨k - 1, by omega⟩
        exact ih _ hlen hdvd2 w hw

/-- C5: for every decimal digit string the tokenizer returns exactly the
parsed successive 7-character windows — hence `ceil(L/7)` tokens, and `k`
full-width windows when the length is exactly `7k`. -/
theorem tokenizer_window_count (s : List Char) (hdig : ∀ c ∈ s, c.isDigit = true) :
    tokenizeDecimal7 s = (specWindows7 s).map decDigitsVal
    ∧ (tokenizeDecimal7 s).length = (s.length + 6) / 7
    ∧ ∀ k, s.length = 7 * k →
        (tokenizeDecimal7 s).length = k ∧ ∀ w ∈ specWindows7 s, w.length = 7 := by
  have h1 : tokenizeDecimal7 s = (specWindows7 s).map decDigitsVal :=
    tokenizeLoop_eq_map s.length s le_rfl hdig
  have h2 : (tokenizeDecimal7 s).length = (s.length + 6) / 7 := by
    rw [h1, List.length_map]
    exact specWindows_length s.length s le_rfl
  refine ⟨h1, h2, ?_⟩
  intro k hk
  constructor
  · rw [h2, hk]
    omega
  · exact specWindows_full_width s.length s le_rfl ⟨k, hk⟩

/-- C5 witness: a 14-digit text yields `ceil(14/7) = 2` tokens, the two
parsed windows. -/
theorem tokenizer_window_count_witness :
    tokenizeDecimal7 ("12345678901234".toList)
      = (specWindows7 ("12345678901234".toList)).map decDigitsVal
    ∧ (tokenizeDecimal7 ("12345678901234".toList)).length
      = (("12345678901234".toList).length + 6) / 7 :=
  ⟨(tokenizer_window_count _ (by decide)).1,
   (tokenizer_window_count _ (by decide)).2.1⟩

theorem decDigitsVal_foldl_lt :
    ∀ (l : List Char) (a : Nat), (∀ c ∈ l, c.isDigit = true) →
      l.foldl (fun a c => a * 10 + (c.toNat - 48)) a < (a + 1) * 10 ^ l.length := by
  intro l
  induction l with
  | nil => intro a _; simp
  | cons c cs ih =>
    intro a h
    have hc : c.toNat - 48 ≤ 9 := by
      have h0 := h c (by simp)
      simp only [Char.isDigit, Char.le_def, Bool.and_eq_true, decide_eq_true_eq] at h0
      have hb : 48 ≤ c.toNat ∧ c.toNat ≤ 57 := ⟨h0.1, h0.2⟩
      omega
    have hrec := ih (a * 10 + (c.toNat - 48)) (fun d hd => h d (by simp [hd]))
    simp only [List.foldl_cons, List.length_cons]
    have h2 : (a * 10 + (c.toNat - 48) + 1) * 10 ^ cs.length
        ≤ (a + 1) * 10 ^ (cs.length + 1) := by
      have hstep : a * 10 + (c.toNat - 48) + 1 ≤ (a + 1) * 10 := by omega
      calc (a * 10 + (c.toNat - 48) + 1) * 10 ^ cs.length
          ≤ ((a + 1) * 10) * 10 ^ cs.length := Nat.mul_le_mul_right _ hstep
        _ = (a + 1) * 10 ^ (cs.length + 1) := by ring
    exact lt_of_lt_of_le hrec h2

theorem decDigitsVal_lt (l : List Char) (h : ∀ c ∈ l, c.isDigit = true) :
    decDigitsVal l < 10 ^ l.length := by
  have := decDigitsVal_foldl_lt l 0 h
  simpa [decDigitsVal] using this

/-- C8: every token of a decimal digit string is at most 9,999,999, which
is strictly below `MAX_COLOR_INDEX = 16^6`; consequently the per-token
range test fails exactly on the value 0. -/
theorem token_range_bound (s : List Char) (hdig : ∀ c ∈ s, c.isDigit = true) :
    ∀ v ∈ tokenizeDecimal7 s,
      v ≤ 9999999 ∧ 9999999 < MAX_COLOR_INDEX
      ∧ (colorIndexValid v = false ↔ v = 0) := by
  intro v hv
  have heq : tokenizeDecimal7 s = (specWindows s.length s).map decDigitsVal :=
    tokenizeLoop_eq_map s.length s le_rfl hdig
  rw [heq] at hv
  rcases List.mem_map.mp hv with ⟨w, hw, rfl⟩
  rcases specWindows_mem s.length s w hw with ⟨hlen, hsub⟩
  have hwd : ∀ c ∈ w, c.isDigit = true := fun c hc => hdig c (hsub c hc)
  have hbound : decDigitsVal w < 10 ^ w.length := decDigitsVal_lt w hwd
  have hpow : (10 : Nat) ^ w.length ≤ 10 ^ 7 :=
    Nat.pow_le_pow_right (by norm_num) hlen
  have hle : decDigitsVal w ≤ 9999999 := by omega
  refine ⟨hle, by norm_num [MAX_COLOR_INDEX], ?_⟩
  simp only [colorIndexValid, MAX_COLOR_INDEX, decide_eq_false_iff_not, not_and, not_le]
  constructor
  · intro h
    by_cases h0 : decDigitsVal w = 0
    · exact h0
    · have := h (by omega)
      norm_num at this
      omega
  · intro h
    rw [h]
    intro h1
    omega

/-- C8 witness: an all-zero window tokenizes to 0, which fails the range
test. -/
theorem token_range_bound_witness :
    (0 : Nat) ≤ 9999999 ∧ 9999999 < MAX_COLOR_INDEX
    ∧ (colorIndexValid 0 = false ↔ (0 : Nat) = 0) :=
  token_range_bound ("0000000".toList) (by decide) 0 (by decide)

theorem toRevDigits_ne_nil (b : Nat) : ∀ fuel n, toRevDigits b fuel n ≠ [] := by
  intro fuel n
  cases fuel with
  | zero => simp [toRevDigits]
  | succ fuel =>
    by_cases h : n < b
    · simp [toRevDigits, h]
    · simp [toRevDigits, h]

/-- C10: the decimal text of every non-negative encoded integer is
non-empty and all digits, so the pipeline always hands the validator at
least one token: the zero-count rejection of the shape check is
unreachable. -/
theorem pipeline_tokens_nonempty (N : Nat) :
    jsNumToString 10 N ≠ [] ∧ 1 ≤ (pipelineTokens N).length ∧ pipelineTokens N ≠ [] := by
  have hne : jsNumToString 10 N ≠ [] := by
    unfold jsNumToString
    simp only [ne_eq, List.reverse_eq_nil_iff, List.map_eq_nil_iff]
    exact toRevDigits_ne_nil 10 N N
  have hdig : ∀ c ∈ jsNumToString 10 N, c.isDigit = true := by
    intro c hc
    unfold jsNumToString at hc
    rw [List.mem_reverse] at hc
    rcases List.mem_map.mp hc with ⟨d, hd, rfl⟩
    have hdlt : d < 10 := toRevDigits_lt 10 (by norm_num) N N d hd
    exact (by decide : ∀ x, x < 10 → (Nat.digitChar x).isDigit = true) d hdlt
  have hcount : (pipelineTokens N).length = ((jsNumToString 10 N).length + 6) / 7 := by
    have heq : tokenizeDecimal7 (jsNumToString 10 N)
        = (specWindows (jsNumToString 10 N).length (jsNumToString 10 N)).map decDigitsVal :=
      tokenizeLoop_eq_map _ _ le_rfl hdig
    show (tokenizeDecimal7 (jsNumToString 10 N)).length = _
    rw [heq, List.length_map]
    exact specWindows_length _ _ le_rfl
  have hlen : 1 ≤ (jsNumToString 10 N).length := by
    cases h : jsNumToString 10 N with
    | nil => exact absurd h hne
    | cons a as => simp
  have h1 : 1 ≤ (pipelineTokens N).length := by
    rw [hcount]
    omega
  refine ⟨hne, h1, ?_⟩
  intro h0
  rw [h0] at h1
  simp at h1

/-! ### Claim C7: adjacency conflict symmetry -/

/-- C7: whenever the adjacency check detects a conflict between a cell
`(r, c)` and the neighbour cell `j` it compares (right or down, with
wrap-around only when wrap is enabled and `m > 1`), both flat indices end
up in the reported conflict set. -/
theorem adjacency_conflict_symmetric (indexes : List Nat) (wrap : Bool) (r c j : Nat)
    (hsq : isPerfectSquare indexes.length = true)
    (hr : r < isqrt indexes.length) (hc : c < isqrt indexes.length)
    (hj : rightTarget (isqrt indexes.length) wrap r c = some j
        ∨ downTarget (isqrt indexes.length) wrap r c = some j)
    (heq : atCell indexes (isqrt indexes.length) r c = indexes.getD j 0) :
    (r * isqrt indexes.length + c) ∈ (adjacencyConflicts indexes wrap).conflicts
    ∧ j ∈ (adjacencyConflicts indexes wrap).conflicts := by
  set m := isqrt indexes.length with hm
  have hconf : (adjacencyConflicts indexes wrap).conflicts
      = (conflictInsertions indexes m wrap).dedup := by
    simp [adjacencyConflicts, hsq, hm]
  have hmemAdds : (r * m + c) ∈ conflictAdds indexes m wrap r c
      ∧ j ∈ conflictAdds indexes m wrap r c := by
    unfold conflictAdds
    rcases hj with hj | hj
    · rw [hj]
      constructor
      · apply List.mem_append_left
        simp [heq]
      · apply List.mem_append_left
        simp [heq]
    · rw [hj]
      constructor
      · apply List.mem_append_right
        simp [heq]
      · apply List.mem_append_right
        simp [heq]
  have hmemIns : ∀ x, x ∈ conflictAdds indexes m wrap r c →
      x ∈ conflictInsertions indexes m wrap := by
    intro x hx
    unfold conflictInsertions
    exact List.mem_flatMap.mpr ⟨r, List.mem_range.mpr hr,
      List.mem_flatMap.mpr ⟨c, List.mem_range.mpr hc, hx⟩⟩
  rw [hconf]
  exact ⟨List.mem_dedup.mpr (hmemIns _ hmemAdds.1),
    List.mem_dedup.mpr (hmemIns _ hmemAdds.2)⟩

/-- C7 witness: in the stream `[1, 1, 2, 3]` cells 0 and 1 are equal
horizontal neighbours, and both appear in the conflict set. -/
theorem adjacency_conflict_symmetric_witness :
    (0 : Nat) ∈ (adjacencyConflicts [1, 1, 2, 3] false).conflicts
    ∧ (1 : Nat) ∈ (adjacencyConflicts [1, 1, 2, 3] false).conflicts :=
  adjacency_conflict_symmetric [1, 1, 2, 3] false 0 0 1 (by decide) (by decide)
    (by decide) (Or.inl (by decide)) (by decide)

/-! ### Encoder lemmas (claims C2, C4, C9) -/

theorem foldl_mulAdd_shift (k : Nat) :
    ∀ (l : List Nat) (a : Nat),
      l.foldl (fun acc d => acc * k + d) a
        = a * k ^ l.length + l.foldl (fun acc d => acc * k + d) 0 := by
  intro l
  induction l with
  | nil => intro a; simp
  | cons d t ih =>
    intro a
    simp only [List.foldl_cons, List.length_cons]
    rw [ih (a * k + d), ih (0 * k + d)]
    ring

theorem ofRevDigits_append (b : Nat) :
    ∀ (xs : List Nat) (d : Nat),
      ofRevDigits b (xs ++ [d]) = ofRevDigits b xs + b ^ xs.length * d := by
  intro xs
  induction xs with
  | nil => intro d; simp [ofRevDigits]
  | cons x t ih =>
    intro d
    simp only [List.cons_append, ofRevDigits, List.append_eq]
    rw [ih d, List.length_cons]
    ring

theorem foldl_eq_ofRevDigits (k : Nat) :
    ∀ l : List Nat,
      l.foldl (fun acc d => acc * k + d) 0 = ofRevDigits k l.reverse := by
  intro l
  induction l with
  | nil => rfl
  | cons d t ih =>
    simp only [List.foldl_cons, List.reverse_cons]
    rw [foldl_mulAdd_shift k t (0 * k + d), ofRevDigits_append, ← ih,
      List.length_reverse]
    ring

/-- Bijective numeration is injective: two digit lists with digits in
`1..k` sharing the same accumulated value are equal. -/
theorem ofRevDigits_inj (k : Nat) :
    ∀ ds es : List Nat, (∀ d ∈ ds, 1 ≤ d ∧ d ≤ k) → (∀ e ∈ es, 1 ≤ e ∧ e ≤ k) →
      ofRevDigits k ds = ofRevDigits k es → ds = es := by
  intro ds
  induction ds with
  | nil =>
    intro es _ he h
    cases es with
    | nil => rfl
    | cons e us =>
      exfalso
      have he1 : 1 ≤ e := (he e (by simp)).1
      simp only [ofRevDigits] at h
      omega
  | cons d ts ih =>
    intro es hd he h
    cases es with
    | nil =>
      exfalso
      have hd1 : 1 ≤ d := (hd d (by simp)).1
      simp only [ofRevDigits] at h
      omega
    | cons e us =>
      simp only [ofRevDigits] at h
      have hd1 := hd d (by simp)
      have he1 := he e (by simp)
      have hk : 0 < k := by omega
      have hshift : (d - 1) + k * ofRevDigits k ts
          = (e - 1) + k * ofRevDigits k us := by omega
      have hmodd : ((d - 1) + k * ofRevDigits k ts) % k = d - 1 := by
        rw [Nat.add_mul_mod_self_left]
        exact Nat.mod_eq_of_lt (by omega)
      have hmode : ((e - 1) + k * ofRevDigits k us) % k = e - 1 := by
        rw [Nat.add_mul_mod_self_left]
        exact Nat.mod_eq_of_lt (by omega)
      have hde : d = e := by
        rw [hshift, hmode] at hmodd
        omega
      have hdivd : ((d - 1) + k * ofRevDigits k ts) / k = ofRevDigits k ts := by
        rw [Nat.add_mul_div_left _ _ hk, Nat.div_eq_of_lt (by omega), Nat.zero_add]
      have hdive : ((e - 1) + k * ofRevDigits k us) / k = ofRevDigits k us := by
        rw [Nat.add_mul_div_left _ _ hk, Nat.div_eq_of_lt (by omega), Nat.zero_add]
      have htails : ofRevDigits k ts = ofRevDigits k us := by
        rw [← hdivd, hshift, hdive]
      have := ih us (fun x hx => hd x (by simp [hx])) (fun x hx => he x (by simp [hx])) htails
      rw [hde, this]

theorem encodeBijectiveGo_ok (k : Nat) (M : Char → Option Nat) :
    ∀ (s : List Char) (a : Nat), (∀ c ∈ s, (M c).isSome = true) →
      encodeBijectiveGo k M s a
        = Except.ok (s.foldl (fun acc ch => acc * k + ((M ch).getD 0 + 1)) a) := by
  intro s
  induction s with
  | nil => intro a _; rfl
  | cons ch t ih =>
    intro a h
    rcases Option.isSome_iff_exists.mp (h ch (by simp)) with ⟨i, hi⟩
    simp only [encodeBijectiveGo, hi, List.foldl_cons, Option.getD_some]
    exact ih _ fun x hx => h x (by simp [hx])

theorem encodeClassicGo_ne_empty (k : Nat) (M : Char → Option Nat) :
    ∀ (s : List Char) (a : Nat),
      encodeClassicGo k M s a ≠ Except.error EncodeError.emptyInput := by
  intro s
  induction s with
  | nil => intro a h; simp [encodeClassicGo] at h
  | cons ch t ih =>
    intro a
    cases hM : M ch with
    | none => simp [encodeClassicGo, hM]
    | some i =>
      simp only [encodeClassicGo, hM]
      exact ih _

theorem encodeBijectiveGo_ne_empty (k : Nat) (M : Char → Option Nat) :
    ∀ (s : List Char) (a : Nat),
      encodeBijectiveGo k M s a ≠ Except.error EncodeError.emptyInput := by
  intro s
  induction s with
  | nil => intro a h; simp [encodeBijectiveGo] at h
  | cons ch t ih =>
    intro a
    cases hM : M ch with
    | none => simp [encodeBijectiveGo, hM]
    | some i =>
      simp only [encodeBijectiveGo, hM]
      exact ih _

theorem buildCharIndexMapAux_sound :
    ∀ (arr : List Char) (i : Nat) (ch : Char) (j : Nat),
      buildCharIndexMapAux arr i ch = some j →
      ∃ t, t < arr.length ∧ j = i + t ∧ arr.get? t = some ch := by
  intro arr
  induction arr with
  | nil => intro i ch j h; simp [buildCharIndexMapAux] at h
  | cons a rest ih =>
    intro i ch j h
    simp only [buildCharIndexMapAux] at h
    cases hrec : buildCharIndexMapAux rest (i + 1) ch with
    | some j1 =>
      rw [hrec] at h
      have hj : j1 = j := Option.some.inj h
      rcases ih (i + 1) ch j1 hrec with ⟨t, ht, hjt, hget⟩
      exact ⟨t + 1, by simpa using ht, by omega, by simpa using hget⟩
    | none =>
      rw [hrec] at h
      by_cases hca : ch = a
      · rw [if_pos hca] at h
        have hj : i = j := Option.some.inj h
        refine ⟨0, by simp, by omega, ?_⟩
        simp [hca]
      · rw [if_neg hca] at h
        exact absurd h (by simp)

theorem buildCharIndexMap_sound (arr : List Char) (ch : Char) (j : Nat)
    (h : buildCharIndexMap arr ch = some j) :
    j < arr.length ∧ arr.get? j = some ch := by
  rcases buildCharIndexMapAux_sound arr 0 ch j h with ⟨t, ht, hj, hget⟩
  have htj : t = j := by omega
  subst htj
  exact ⟨ht, hget⟩

theorem buildCharIndexMapAux_isSome :
    ∀ (arr : List Char) (i : Nat) (ch : Char), ch ∈ arr →
      (buildCharIndexMapAux arr i ch).isSome = true := by
  intro arr
  induction arr with
  | nil => intro i ch h; simp at h
  | cons a rest ih =>
    intro i ch h
    simp only [buildCharIndexMapAux]
    cases hrec : buildCharIndexMapAux rest (i + 1) ch with
    | some j => simp
    | none =>
      rcases List.mem_cons.mp h with rfl | hmem
      · simp
      · have := ih (i + 1) ch hmem
        rw [hrec] at this
        simp at this

theorem buildCharIndexMap_inj (arr : List Char) (c1 c2 : Char) (j : Nat)
    (h1 : buildCharIndexMap arr c1 = some j) (h2 : buildCharIndexMap arr c2 = some j) :
    c1 = c2 := by
  rcases buildCharIndexMap_sound arr c1 j h1 with ⟨_, hg1⟩
  rcases buildCharIndexMap_sound arr c2 j h2 with ⟨_, hg2⟩
  rw [hg1] at hg2
  exact Option.some.inj hg2

theorem dig_bounds (arr : List Char) (c : Char)
    (h : (buildCharIndexMap arr c).isSome = true) :
    1 ≤ (buildCharIndexMap arr c).getD 0 + 1
    ∧ (buildCharIndexMap arr c).getD 0 + 1 ≤ arr.length := by
  rcases Option.isSome_iff_exists.mp h with ⟨i, hi⟩
  rcases buildCharIndexMap_sound arr c i hi with ⟨hlt, _⟩
  simp only [hi, Option.getD_some]
  omega

theorem map_dig_inj (arr : List Char) :
    ∀ s t : List Char,
      (∀ c ∈ s, (buildCharIndexMap arr c).isSome = true) →
      (∀ c ∈ t, (buildCharIndexMap arr c).isSome = true) →
      s.map (fun c => (buildCharIndexMap arr c).getD 0 + 1)
        = t.map (fun c => (buildCharIndexMap arr c).getD 0 + 1) → s = t := by
  intro s
  induction s with
  | nil =>
    intro t _ _ h
    cases t with
    | nil => rfl
    | cons b bs => simp at h
  | cons a as ih =>
    intro t hs ht h
    cases t with
    | nil => simp at h
    | cons b bs =>
      simp only [List.map_cons, List.cons.injEq] at h
      rcases h with ⟨hab, hrest⟩
      rcases Option.isSome_iff_exists.mp (hs a (by simp)) with ⟨i, hi⟩
      rcases Option.isSome_iff_exists.mp (ht b (by simp)) with ⟨i1, hi1⟩
      simp only [hi, hi1, Option.getD_some] at hab
      have hii : i = i1 := by omega
      have hchar : a = b :=
        buildCharIndexMap_inj arr a b i hi (by rw [hi1, hii])
      rw [hchar, ih bs (fun c hc => hs c (by simp [hc]))
        (fun c hc => ht c (by simp [hc])) hrest]

theorem fold_dig_eq (k : Nat) (M : Char → Option Nat) :
    ∀ s : List Char,
      s.foldl (fun acc ch => acc * k + ((M ch).getD 0 + 1)) 0
        = ofRevDigits k ((s.map fun ch => (M ch).getD 0 + 1).reverse) := by
  intro s
  rw [← foldl_eq_ofRevDigits, List.foldl_map]

/-- Core injectivity of the bijective base-k text encoding over the built
character-index map: equal encodings force equal strings. -/
theorem encodeStringBijective_inj_core (arr s t : List Char)
    (hs : ∀ c ∈ s, c ∈ arr) (ht : ∀ c ∈ t, c ∈ arr)
    (hsw : s.all jsIsWhitespace = false) (htw : t.all jsIsWhitespace = false)
    (h : encodeStringBijective s arr (buildCharIndexMap arr)
        = encodeStringBijective t arr (buildCharIndexMap arr)) : s = t := by
  have hsSome : ∀ c ∈ s, ((buildCharIndexMap arr) c).isSome = true :=
    fun c hc => buildCharIndexMapAux_isSome arr 0 c (hs c hc)
  have htSome : ∀ c ∈ t, ((buildCharIndexMap arr) c).isSome = true :=
    fun c hc => buildCharIndexMapAux_isSome arr 0 c (ht c hc)
  simp only [encodeStringBijective, hsw, htw, Bool.false_eq_true, if_false] at h
  rw [encodeBijectiveGo_ok _ _ s 0 hsSome, encodeBijectiveGo_ok _ _ t 0 htSome] at h
  have hval := Except.ok.inj h
  rw [fold_dig_eq, fold_dig_eq] at hval
  have hds : ∀ d ∈ (s.map fun ch => ((buildCharIndexMap arr) ch).getD 0 + 1).reverse,
      1 ≤ d ∧ d ≤ arr.length := by
    intro d hd
    rw [List.mem_reverse] at hd
    rcases List.mem_map.mp hd with ⟨c, hc, rfl⟩
    exact dig_bounds arr c (hsSome c hc)
  have hdt : ∀ d ∈ (t.map fun ch => ((buildCharIndexMap arr) ch).getD 0 + 1).reverse,
      1 ≤ d ∧ d ≤ arr.length := by
    intro d hd
    rw [List.mem_reverse] at hd
    rcases List.mem_map.mp hd with ⟨c, hc, rfl⟩
    exact dig_bounds arr c (htSome c hc)
  have hrev := ofRevDigits_inj arr.length _ _ hds hdt hval
  exact map_dig_inj arr s t hsSome htSome (List.reverse_injective hrev)

/-! ### Claim C2: injectivity of the bijective encoding -/

/-- C2: the bijective base-k encoding separates every two distinct strings
over the symbol table (non-empty, not all-whitespace): their encodings
differ. -/
theorem bijective_encoding_injective (charsetArr s t : List Char)
    (hs : ∀ c ∈ s, c ∈ charsetArr) (ht : ∀ c ∈ t, c ∈ charsetArr)
    (_hsne : s ≠ []) (_htne : t ≠ [])
    (hsw : s.all jsIsWhitespace = false) (htw : t.all jsIsWhitespace = false)
    (hne : s ≠ t) :
    encodeStringBijective s charsetArr (buildCharIndexMap charsetArr)
      ≠ encodeStringBijective t charsetArr (buildCharIndexMap charsetArr) :=
  fun h => hne (encodeStringBijective_inj_core charsetArr s t hs ht hsw htw h)

/-- C2 witness: two distinct one-character strings over a two-symbol table
encode differently. -/
theorem bijective_encoding_injective_witness :
    encodeStringBijective ['a'] ['a', 'b'] (buildCharIndexMap ['a', 'b'])
      ≠ encodeStringBijective ['b'] ['a', 'b'] (buildCharIndexMap ['a', 'b']) :=
  bijective_encoding_injective ['a', 'b'] ['a'] ['b'] (by decide) (by decide)
    (by decide) (by decide) (by decide) (by decide) (by decide)

/-! ### Claim C4: the classic leading-zero collision -/

/-- C4: prepending the index-0 symbol leaves the classic positional
encoding unchanged, while the bijective encoding distinguishes the two
strings. -/
theorem classic_collision_bijective_distinct (charsetArr : List Char) (c0 : Char)
    (s : List Char)
    (h0 : buildCharIndexMap charsetArr c0 = some 0)
    (hs : ∀ c ∈ s, c ∈ charsetArr)
    (hsw : s.all jsIsWhitespace = false) :
    encodeStringClassic (c0 :: s) charsetArr (buildCharIndexMap charsetArr)
      = encodeStringClassic s charsetArr (buildCharIndexMap charsetArr)
    ∧ encodeStringBijective (c0 :: s) charsetArr (buildCharIndexMap charsetArr)
      ≠ encodeStringBijective s charsetArr (buildCharIndexMap charsetArr) := by
  have hcons : (c0 :: s).all jsIsWhitespace = false := by
    simp [List.all_cons, hsw]
  constructor
  · simp only [encodeStringClassic, hcons, hsw, Bool.false_eq_true, if_false,
      encodeClassicGo, h0, Nat.zero_mul, Nat.add_zero]
  · intro h
    have hcmem : c0 ∈ charsetArr := by
      rcases buildCharIndexMap_sound charsetArr c0 0 h0 with ⟨_, hget⟩
      exact List.get?_mem hget
    have hall : ∀ c ∈ c0 :: s, c ∈ charsetArr := by
      intro c hc
      rcases List.mem_cons.mp hc with rfl | hc
      · exact hcmem
      · exact hs c hc
    have heq := encodeStringBijective_inj_core charsetArr (c0 :: s) s hall hs hcons hsw h
    have := congrArg List.length heq
    simp at this

/-- C4 witness: over the table `['a', 'b']`, prepending `'a'` (index 0) to
`"b"` collides classically but not bijectively. -/
theorem classic_collision_bijective_distinct_witness :
    encodeStringClassic ['a', 'b'] ['a', 'b'] (buildCharIndexMap ['a', 'b'])
      = encodeStringClassic ['b'] ['a', 'b'] (buildCharIndexMap ['a', 'b'])
    ∧ encodeStringBijective ['a', 'b'] ['a', 'b'] (buildCharIndexMap ['a', 'b'])
      ≠ encodeStringBijective ['b'] ['a', 'b'] (buildCharIndexMap ['a', 'b']) :=
  classic_collision_bijective_distinct ['a', 'b'] 'a' ['b'] (by decide) (by decide)
    (by decide)

/-! ### Claim C9: encoder error conditions -/

theorem matchesDecimal_iff (t : List Char) :
    matchesDecimal t = true ↔ (t ≠ [] ∧ ∀ c ∈ t, c.isDigit = true) := by
  cases t with
  | nil => simp [matchesDecimal]
  | cons a as => simp [matchesDecimal, List.all_eq_true]

theorem matchesBinary_iff (t : List Char) :
    matchesBinary t = true ↔ (t ≠ [] ∧ ∀ c ∈ t, c = '0' ∨ c = '1') := by
  cases t with
  | nil => simp [matchesBinary]
  | cons a as => simp [matchesBinary, List.all_eq_true]

/-- C9: decimal parse fails exactly when the trimmed input does not match
`^[0-9]+$` and otherwise yields the literal decimal value; binary parse
fails exactly when the trimmed input does not match `^[01]+$` and otherwise
yields the base-2 value; both text encoders report empty input exactly on
an empty or all-whitespace string. -/
theorem encoder_error_conditions :
    (∀ s : List Char,
      (parseDecimalBigInt s = Except.error "Decimal input must contain only digits 0-9."
        ↔ ¬ (jsTrim s ≠ [] ∧ ∀ c ∈ jsTrim s, c.isDigit = true)))
    ∧ (∀ s : List Char, jsTrim s ≠ [] → (∀ c ∈ jsTrim s, c.isDigit = true) →
        parseDecimalBigInt s = Except.ok (decDigitsVal (jsTrim s)))
    ∧ (∀ s : List Char,
      (parseBinaryToBigInt s = Except.error "Binary input must contain only 0 and 1."
        ↔ ¬ (jsTrim s ≠ [] ∧ ∀ c ∈ jsTrim s, c = '0' ∨ c = '1')))
    ∧ (∀ s : List Char, jsTrim s ≠ [] → (∀ c ∈ jsTrim s, c = '0' ∨ c = '1') →
        parseBinaryToBigInt s = Except.ok (bitsVal (jsTrim s)))
    ∧ (∀ (str charsetArr : List Char) (M : Char → Option Nat),
        encodeStringClassic str charsetArr M = Except.error EncodeError.emptyInput
          ↔ str.all jsIsWhitespace = true)
    ∧ (∀ (str charsetArr : List Char) (M : Char → Option Nat),
        encodeStringBijective str charsetArr M = Except.error EncodeError.emptyInput
          ↔ str.all jsIsWhitespace = true) := by
  refine ⟨?_, ?_, ?_, ?_, ?_, ?_⟩
  · intro s
    by_cases hm : matchesDecimal (jsTrim s) = true
    · have hp := (matchesDecimal_iff _).mp hm
      simp [parseDecimalBigInt, hm, hp]
      exact fun x hx => hp.2 x hx
    · have hp : ¬ (jsTrim s ≠ [] ∧ ∀ c ∈ jsTrim s, c.isDigit = true) :=
        fun hc => hm ((matchesDecimal_iff _).mpr hc)
      simp [parseDecimalBigInt, hm, hp]
  · intro s h1 h2
    simp [parseDecimalBigInt, (matchesDecimal_iff _).mpr ⟨h1, h2⟩]
  · intro s
    by_cases hm : matchesBinary (jsTrim s) = true
    · have hp := (matchesBinary_iff _).mp hm
      simp [parseBinaryToBigInt, hm, hp]
      exact fun x hx h0 => (hp.2 x hx).resolve_left h0
    · have hp : ¬ (jsTrim s ≠ [] ∧ ∀ c ∈ jsTrim s, c = '0' ∨ c = '1') :=
        fun hc => hm ((matchesBinary_iff _).mpr hc)
      simp [parseBinaryToBigInt, hm, hp]
  · intro s h1 h2
    simp [parseBinaryToBigInt, (matchesBinary_iff _).mpr ⟨h1, h2⟩]
  · intro str charsetArr M
    cases hws : str.all jsIsWhitespace with
    | true => simp [encodeStringClassic, hws]
    | false =>
      have := encodeClassicGo_ne_empty charsetArr.length M str 0
      simp [encodeStringClassic, hws, this]
  · intro str charsetArr M
    cases hws : str.all jsIsWhitespace with
    | true => simp [encodeStringBijective, hws]
    | false =>
      have := encodeBijectiveGo_ne_empty charsetArr.length M str 0
      simp [encodeStringBijective, hws, this]

/-- C9 witness: concrete successes and failures of each encoder. -/
theorem encoder_error_conditions_witness :
    parseDecimalBigInt ("  123  ".toList) = Except.ok 123
    ∧ parseBinaryToBigInt (" 101 ".toList) = Except.ok 5
    ∧ parseDecimalBigInt ("12a".toList)
      = Except.error "Decimal input must contain only digits 0-9."
    ∧ encodeStringClassic ("  ".toList) ['a'] (buildCharIndexMap ['a'])
      = Except.error EncodeError.emptyInput
    ∧ encodeStringBijective ("  ".toList) ['a'] (buildCharIndexMap ['a'])
      = Except.error EncodeError.emptyInput :=
  ⟨(encoder_error_conditions.2.1 ("  123  ".toList) (by decide) (by decide)).trans
      (congrArg Except.ok (by decide)),
   (encoder_error_conditions.2.2.2.1 (" 101 ".toList) (by decide) (by decide)).trans
      (congrArg Except.ok (by decide)),
   (encoder_error_conditions.1 ("12a".toList)).mpr (by decide),
   (encoder_error_conditions.2.2.2.2.1 ("  ".toList) ['a']
      (buildCharIndexMap ['a'])).mpr (by decide),
   (encoder_error_conditions.2.2.2.2.2 ("  ".toList) ['a']
      (buildCharIndexMap ['a'])).mpr (by decide)⟩

end C700
